import Mathlib

/-!
Verification of the MemoryManager orchestration core.

The definitions below are a shallow embedding of the Python sources:
`memory/model.py`, `memory/manager.py`, `memory/in_memory.py`,
`memory_server/llm_ability.py`, `memory_server/server_memory_session.py`
and `memory_server/in_memory.py`.  Python dictionaries are embedded as
association lists with unique keys (insertion order preserved, as in
CPython), Python exceptions as `Except String`, and the asynchronous
oracle round-trips as explicit parameters carrying the oracle's parsed
responses (each operation awaits every oracle reply before mutating any
state, so within one operation the data flow is purely sequential).
-/

set_option maxRecDepth 8000

namespace MemMgr

/-- `Memory` from `memory/model.py`: name (unique key), abstract, memory_block.
Python equality on `Memory` is name-only; where the source relies on
`__eq__` (e.g. `list.remove`) the embedding compares names explicitly. -/
structure Memory where
  name : String
  abstract : String
  memory_block : String
  deriving DecidableEq, Repr

/-- `MemoryAbstract` from `memory/model.py`: the (name, abstract) projection. -/
structure MemoryAbstract where
  name : String
  abstract : String
  deriving DecidableEq, Repr

/-- A Python `dict[str, int]` embedded as an insertion-ordered association list. -/
abbrev RelevanceMap := List (String × Int)

/-- The `MemoryManager` snapshot state from `memory/manager.py`:
the backing store (embedded as the `InMemoryMemoryRepository` list),
the visible-memory list and the relevance map. -/
structure Snapshot where
  store : List Memory
  visible : List Memory
  relevance : RelevanceMap
  deriving DecidableEq, Repr

/-- Python `d.get(k)` / `k in d` on an association list. -/
def dictGet : RelevanceMap → String → Option Int
  | [], _ => none
  | (k0, v0) :: rest, k => if k0 = k then some v0 else dictGet rest k

/-- Python `d[k] = v`: overwrite in place if the key exists (keeping its
position), otherwise append - CPython dict semantics. -/
def dictSet : RelevanceMap → String → Int → RelevanceMap
  | [], k, v => [(k, v)]
  | (k0, v0) :: rest, k, v =>
    if k0 = k then (k0, v) :: rest else (k0, v0) :: dictSet rest k v

/-- Python `{**base, **upd}`: start from `base` and assign every pair of `upd`. -/
def dictMergeInto (base upd : RelevanceMap) : RelevanceMap :=
  upd.foldl (fun acc p => dictSet acc p.1 p.2) base

/-- Python `{name: delta for name in names}`: a dict comprehension assigns
each name in turn (first occurrence fixes the position). -/
def dictFromNames (names : List String) (delta : Int) : RelevanceMap :=
  names.foldl (fun acc n => dictSet acc n delta) []

/-- `MemoryManager.force_update_relevance_map` (`memory/manager.py` lines 83-104):
`new_relevance_map = {**self.relevance_map, **delta_map}`, then for every
`(name, delta_value)` in `delta_map`, `new_relevance_map[name] += delta_value`
if `name in new_relevance_map` else `new_relevance_map[name] = delta_value`. -/
def force_update_relevance_map (relevance delta_map : RelevanceMap) : RelevanceMap :=
  let merged := dictMergeInto relevance delta_map
  delta_map.foldl
    (fun acc p =>
      match dictGet acc p.1 with
      | some v => dictSet acc p.1 (v + p.2)
      | none => dictSet acc p.1 p.2)
    merged

/-- Snapshot-level `force_update_relevance_map`: only the relevance map changes. -/
def forceUpdateRelevanceSnap (s : Snapshot) (delta_map : RelevanceMap) : Snapshot :=
  { s with relevance := force_update_relevance_map s.relevance delta_map }

/-- Names of a memory list (`[x.name for x in l]`). -/
def memNames (l : List Memory) : List String :=
  l.map Memory.name

/-- `InMemoryMemoryRepository.add_memory` (`memory/in_memory.py`):
`if memory in self._delegate: raise ValueError(...)` - membership uses the
name-only `Memory.__eq__` - `else: self._delegate.append(memory)`. -/
def add_memory (store : List Memory) (m : Memory) : Except String (List Memory) :=
  if store.any (fun x => x.name == m.name) then
    .error ("Memory with name " ++ m.name ++ " already exists")
  else
    .ok (store ++ [m])

/-- Python `list.remove(x)` under name-only equality: drop the first element
whose name matches, `none` when no element matches (ValueError in Python). -/
def removeFirstByName : List Memory → String → Option (List Memory)
  | [], _ => none
  | x :: rest, n =>
    if x.name = n then some rest
    else (removeFirstByName rest n).map (fun r => x :: r)

/-- `InMemoryMemoryRepository.update_memory` (`memory/in_memory.py`):
`self._delegate.remove(memory)` (first name-equal element, ValueError if
absent) then `self.__add_memory_impl(memory)` (duplicate check + append). -/
def store_update_memory (store : List Memory) (m : Memory) : Except String (List Memory) :=
  match removeFirstByName store m.name with
  | none => .error "list.remove(x): x not in list"
  | some st =>
    if st.any (fun x => x.name == m.name) then
      .error ("Memory with name " ++ m.name ++ " already exists")
    else
      .ok (st ++ [m])

/-- `InMemoryMemoryRepository.remove_memory_by_name` (`memory_server/in_memory.py`):
`self._delegate.remove([m for m in self._delegate if m.name == name][0])`;
indexing an empty match list raises IndexError. -/
def remove_memory_by_name (store : List Memory) (n : String) : Except String (List Memory) :=
  match removeFirstByName store n with
  | none => .error "IndexError: list index out of range"
  | some st => .ok st

/-- `MemoryManager.force_add_memory` (`memory/manager.py` lines 55-81):
fail if the name already appears in `visible_memories`, otherwise persist to
the repository (which re-checks against the store) and append to the visible
list of a fresh snapshot. -/
def force_add_memory (s : Snapshot) (m : Memory) : Except String Snapshot :=
  if s.visible.any (fun x => x.name == m.name) then
    .error ("Memory with name " ++ m.name ++ " already exists")
  else
    match add_memory s.store m with
    | .error e => .error e
    | .ok st => .ok { store := st, visible := s.visible ++ [m], relevance := s.relevance }

/-- `MemoryManager.force_update_memory` (`memory/manager.py` lines 106-128):
copy the visible list, `remove(memory)` (first name-equal entry, ValueError
if absent), append the new value, then persist via the repository update. -/
def force_update_memory (s : Snapshot) (m : Memory) : Except String Snapshot :=
  match removeFirstByName s.visible m.name with
  | none => .error "list.remove(x): x not in list"
  | some v =>
    match store_update_memory s.store m with
    | .error e => .error e
    | .ok st => .ok { store := st, visible := v ++ [m], relevance := s.relevance }

/-- Claim C1 (code evaluation at the failing inputs): the merge
`{**relevance_map, **delta_map}` already overwrites each delta-map name with
its delta, and the following loop adds the delta a second time, so every name
in the delta map ends at exactly twice its delta and the prior count is
discarded: `{A:1}` updated by `{A:2}` yields 4 (the claim says 3); applying
`{A:2}` then `{A:3}` from empty yields 6 (the claim says 5); and the
`{X:2, Z:2}` scenario from empty yields `{X:4, Z:4}` (the claim says
`{X:2, Z:2}`). -/
theorem c1_relevance_update_doubles_delta :
    force_update_relevance_map [("A", 1)] [("A", 2)] = [("A", 4)] ∧
    force_update_relevance_map (force_update_relevance_map [] [("A", 2)]) [("A", 3)]
      = [("A", 6)] ∧
    force_update_relevance_map [] [("X", 2), ("Z", 2)] = [("X", 4), ("Z", 4)] :=
  ⟨rfl, rfl, rfl⟩

/-- The batch application loop shared by `full_update` (lines 159-163, with
`try/except ValueError`) and by a caller that keeps its prior snapshot after a
failed `force_add_memory`: on success continue from the new snapshot, on
failure continue from the unchanged one. -/
def addAllCaught (s : Snapshot) : List Memory → Snapshot
  | [] => s
  | m :: rest =>
    match force_add_memory s m with
    | .ok s2 => addAllCaught s2 rest
    | .error _ => addAllCaught s rest

lemma any_name_iff (l : List Memory) (n : String) :
    l.any (fun x => x.name == n) = true ↔ n ∈ memNames l := by
  rw [List.any_eq_true]
  constructor
  · rintro ⟨x, hx, he⟩
    have hxe : x.name = n := by simpa using he
    exact hxe ▸ List.mem_map_of_mem Memory.name hx
  · intro h
    obtain ⟨x, hx, he⟩ := List.mem_map.mp h
    exact ⟨x, hx, by simp [he]⟩

lemma any_name_eq_false (l : List Memory) (n : String) (h : n ∉ memNames l) :
    l.any (fun x => x.name == n) = false := by
  rw [Bool.eq_false_iff]
  exact fun hc => h ((any_name_iff l n).mp hc)

lemma force_add_error_of_mem (s : Snapshot) (m : Memory)
    (h : m.name ∈ memNames s.visible) :
    force_add_memory s m = .error ("Memory with name " ++ m.name ++ " already exists") := by
  have hb : s.visible.any (fun x => x.name == m.name) = true :=
    (any_name_iff s.visible m.name).mpr h
  unfold force_add_memory
  rw [hb]
  rfl

lemma force_add_ok_of_not_mem (s : Snapshot) (m : Memory)
    (h1 : m.name ∉ memNames s.visible) (h2 : m.name ∉ memNames s.store) :
    force_add_memory s m
      = .ok { store := s.store ++ [m], visible := s.visible ++ [m], relevance := s.relevance } := by
  simp [force_add_memory, add_memory,
    any_name_eq_false s.visible m.name h1, any_name_eq_false s.store m.name h2]

lemma force_add_ok_inv {s : Snapshot} {m : Memory} {s2 : Snapshot}
    (h : force_add_memory s m = .ok s2) :
    m.name ∉ memNames s.visible ∧ m.name ∉ memNames s.store ∧
      s2 = { store := s.store ++ [m], visible := s.visible ++ [m], relevance := s.relevance } := by
  by_cases h1 : s.visible.any (fun x => x.name == m.name) = true
  · simp [force_add_memory, h1] at h
  · by_cases h2 : s.store.any (fun x => x.name == m.name) = true
    · simp [force_add_memory, add_memory, h1, h2] at h
    · simp [force_add_memory, add_memory, h1, h2] at h
      refine ⟨fun hc => h1 ((any_name_iff _ _).mpr hc),
        fun hc => h2 ((any_name_iff _ _).mpr hc), h.symm⟩

lemma memNames_append (l1 l2 : List Memory) :
    memNames (l1 ++ l2) = memNames l1 ++ memNames l2 := by
  simp [memNames]

lemma addAllCaught_nodup (ms : List Memory) :
    ∀ s : Snapshot, (memNames s.visible).Nodup →
      (memNames (addAllCaught s ms).visible).Nodup := by
  induction ms with
  | nil => intro s h; simpa [addAllCaught] using h
  | cons m rest ih =>
    intro s h
    cases hfa : force_add_memory s m with
    | error e => rw [addAllCaught, hfa]; exact ih s h
    | ok s2 =>
      rw [addAllCaught, hfa]
      obtain ⟨hv, _, hs2⟩ := force_add_ok_inv hfa
      refine ih s2 ?_
      rw [hs2]
      show (memNames (s.visible ++ [m])).Nodup
      rw [memNames_append, List.nodup_append]
      refine ⟨h, ?_, ?_⟩
      · show (memNames [m]).Nodup
        simp [memNames]
      · intro a ha hb
        have hb2 : a = m.name := by simpa [memNames] using hb
        exact hv (hb2 ▸ ha)

/-- Claim C5: starting from a snapshot whose visible names are pairwise
distinct, any sequence of `force_add_memory` calls (the caller keeping its
prior snapshot whenever a call fails) preserves that uniqueness; a call whose
memory name already appears in `visible` fails with the DuplicateKey
ValueError (returning no new snapshot, so the receiving snapshot's visible
list and relevance map are unchanged); a call with a fresh name persists the
memory to the store and appends it to the visible list. -/
theorem c5_force_add_uniqueness (s : Snapshot) (ms : List Memory)
    (h : (memNames s.visible).Nodup) :
    (memNames (addAllCaught s ms).visible).Nodup ∧
    (∀ m : Memory, m.name ∈ memNames s.visible →
      force_add_memory s m = .error ("Memory with name " ++ m.name ++ " already exists")) ∧
    (∀ m : Memory, m.name ∉ memNames s.visible → m.name ∉ memNames s.store →
      force_add_memory s m
        = .ok { store := s.store ++ [m], visible := s.visible ++ [m],
                relevance := s.relevance }) :=
  ⟨addAllCaught_nodup ms s h,
   fun m hm => force_add_error_of_mem s m hm,
   fun m h1 h2 => force_add_ok_of_not_mem s m h1 h2⟩

/-- Witness for C5 at concrete inputs: adding A, a second A and B to the empty
snapshot leaves distinct visible names; the conflicting second add fails; the
fresh add appends to store and visible. -/
theorem c5_force_add_uniqueness_witness :
    (memNames (addAllCaught ⟨[], [], []⟩
        [⟨"A", "a", "1"⟩, ⟨"A", "a", "2"⟩, ⟨"B", "b", "3"⟩]).visible).Nodup ∧
    force_add_memory ⟨[⟨"A", "a", "1"⟩], [⟨"A", "a", "1"⟩], []⟩ ⟨"A", "x", "9"⟩
      = .error ("Memory with name " ++ "A" ++ " already exists") ∧
    force_add_memory ⟨[], [], []⟩ ⟨"B", "b", "3"⟩
      = .ok { store := [] ++ [⟨"B", "b", "3"⟩], visible := [] ++ [⟨"B", "b", "3"⟩],
              relevance := [] } :=
  ⟨(c5_force_add_uniqueness ⟨[], [], []⟩
      [⟨"A", "a", "1"⟩, ⟨"A", "a", "2"⟩, ⟨"B", "b", "3"⟩] (by decide)).1,
   (c5_force_add_uniqueness ⟨[⟨"A", "a", "1"⟩], [⟨"A", "a", "1"⟩], []⟩ [] (by decide)).2.1
     ⟨"A", "x", "9"⟩ (by decide),
   (c5_force_add_uniqueness ⟨[], [], []⟩ [] (by decide)).2.2
     ⟨"B", "b", "3"⟩ (by decide) (by decide)⟩

/-- `MemoryManager.extract_new_memories` application loop (`memory/manager.py`
lines 224-227): `for memory in new_memories: new_manager = await
new_manager.force_add_memory(memory)` - there is no try/except here, so the
first ValueError aborts the loop and propagates.  Parameterized by the
oracle's proposed memory list. -/
def extract_new_memories_apply (s : Snapshot) : List Memory → Except String Snapshot
  | [] => .ok s
  | m :: rest =>
    match force_add_memory s m with
    | .ok s2 => extract_new_memories_apply s2 rest
    | .error e => .error e

lemma extract_apply_append (l1 l2 : List Memory) : ∀ s : Snapshot,
    extract_new_memories_apply s (l1 ++ l2)
      = match extract_new_memories_apply s l1 with
        | .ok s1 => extract_new_memories_apply s1 l2
        | .error e => .error e := by
  induction l1 with
  | nil => intro s; simp [extract_new_memories_apply]
  | cons m rest ih =>
    intro s
    cases hfa : force_add_memory s m with
    | ok s2 => simp [extract_new_memories_apply, hfa, ih s2]
    | error e => simp [extract_new_memories_apply, hfa]

/-- Counterexample to claim C2: with the store and visible list holding a
memory named A, `extract_new_memories` applied to the oracle proposal
[A-duplicate, B] raises the DuplicateKey ValueError instead of skipping the
duplicate; no snapshot is returned and the non-duplicate B is never added. -/
theorem c2_counterexample_duplicate_aborts :
    extract_new_memories_apply
        ⟨[⟨"A", "a", "old"⟩], [⟨"A", "a", "old"⟩], []⟩
        [⟨"A", "a", "dup"⟩, ⟨"B", "b", "new"⟩]
      = .error "Memory with name A already exists" := rfl

/-- Claim C2 amended: in `extract_new_memories` a DuplicateKey failure is
fatal, not skipped: as soon as one proposed entry's name already appears in
the visible list built so far, the whole operation aborts with that error and
no later proposed entry is applied (only `full_update`'s batch path catches
the ValueError). -/
theorem c2_amended_duplicate_fatal (s s1 : Snapshot) (l1 l2 : List Memory) (d : Memory)
    (h1 : extract_new_memories_apply s l1 = .ok s1)
    (h2 : d.name ∈ memNames s1.visible) :
    extract_new_memories_apply s (l1 ++ d :: l2)
      = .error ("Memory with name " ++ d.name ++ " already exists") := by
  rw [extract_apply_append, h1]
  show extract_new_memories_apply s1 (d :: l2)
      = .error ("Memory with name " ++ d.name ++ " already exists")
  rw [extract_new_memories_apply, force_add_error_of_mem s1 d h2]

/-- Witness for the amended C2 at concrete inputs: B applies, then the
duplicate A aborts, so C is never added. -/
theorem c2_amended_duplicate_fatal_witness :
    extract_new_memories_apply ⟨[⟨"A", "a", "old"⟩], [⟨"A", "a", "old"⟩], []⟩
        ([⟨"B", "b", "1"⟩] ++ ⟨"A", "a", "dup"⟩ :: [⟨"C", "c", "2"⟩])
      = .error ("Memory with name " ++ "A" ++ " already exists") :=
  c2_amended_duplicate_fatal
    ⟨[⟨"A", "a", "old"⟩], [⟨"A", "a", "old"⟩], []⟩
    ⟨[⟨"A", "a", "old"⟩, ⟨"B", "b", "1"⟩], [⟨"A", "a", "old"⟩, ⟨"B", "b", "1"⟩], []⟩
    [⟨"B", "b", "1"⟩] [⟨"C", "c", "2"⟩] ⟨"A", "a", "dup"⟩ rfl (by decide)

/-- The content-update loop of `full_update` (`memory/manager.py` lines
164-168): `force_update_memory` with `except ValueError` caught and logged. -/
def forceUpdateAllCaught (s : Snapshot) : List Memory → Snapshot
  | [] => s
  | m :: rest =>
    match force_update_memory s m with
    | .ok s2 => forceUpdateAllCaught s2 rest
    | .error _ => forceUpdateAllCaught s rest

/-- `MemoryManager.full_update` (`memory/manager.py` lines 130-172) after its
three oracle round-trips have been awaited: apply all proposed new memories
(ValueError caught and logged), then all updated memories (ValueError caught),
then the relevance delta for the related names, and return the final
snapshot. -/
def full_update (s : Snapshot) (new_memories updated_memories : List Memory)
    (related_names : List String) (delta : Int) : Snapshot :=
  forceUpdateRelevanceSnap
    (forceUpdateAllCaught (addAllCaught s new_memories) updated_memories)
    (dictFromNames related_names delta)

/-- The entries the new-memory batch phase actually appended to `visible`. -/
def addedSuffix (s : Snapshot) (P : List Memory) : List Memory :=
  (addAllCaught s P).visible.drop s.visible.length

lemma addAllCaught_decomp (P : List Memory) : ∀ s : Snapshot, ∃ A : List Memory,
    (addAllCaught s P).store = s.store ++ A ∧
    (addAllCaught s P).visible = s.visible ++ A ∧
    (addAllCaught s P).relevance = s.relevance ∧
    ∀ a ∈ A, a ∈ P ∧ a.name ∉ memNames s.visible ∧ a.name ∉ memNames s.store := by
  induction P with
  | nil =>
    intro s
    exact ⟨[], by simp [addAllCaught], by simp [addAllCaught], by simp [addAllCaught],
      by simp⟩
  | cons m rest ih =>
    intro s
    cases hfa : force_add_memory s m with
    | error e =>
      obtain ⟨A, h1, h2, h3, h4⟩ := ih s
      refine ⟨A, ?_, ?_, ?_, ?_⟩
      · rw [addAllCaught, hfa]; exact h1
      · rw [addAllCaught, hfa]; exact h2
      · rw [addAllCaught, hfa]; exact h3
      · intro a ha
        obtain ⟨p1, p2, p3⟩ := h4 a ha
        exact ⟨List.mem_cons_of_mem m p1, p2, p3⟩
    | ok s2 =>
      obtain ⟨hv, hst, hs2⟩ := force_add_ok_inv hfa
      obtain ⟨A, h1, h2, h3, h4⟩ := ih s2
      refine ⟨m :: A, ?_, ?_, ?_, ?_⟩
      · rw [addAllCaught, hfa, h1, hs2]
        simp
      · rw [addAllCaught, hfa, h2, hs2]
        simp
      · rw [addAllCaught, hfa, h3, hs2]
      · intro a ha
        rcases List.mem_cons.mp ha with he | hA
        · rw [he]
          exact ⟨List.mem_cons_self m rest, hv, hst⟩
        · obtain ⟨p1, p2, p3⟩ := h4 a hA
          rw [hs2] at p2 p3
          simp only [memNames_append] at p2 p3
          refine ⟨List.mem_cons_of_mem m p1, ?_, ?_⟩
          · exact fun hc => p2 (List.mem_append_left _ hc)
          · exact fun hc => p3 (List.mem_append_left _ hc)

lemma addAllCaught_mem_preserved (P : List Memory) (s : Snapshot) (m : Memory)
    (h : m ∈ s.visible) : m ∈ (addAllCaught s P).visible := by
  obtain ⟨A, _, h2, _, _⟩ := addAllCaught_decomp P s
  rw [h2]
  exact List.mem_append_left _ h

lemma addAllCaught_adds (P : List Memory) : ∀ (s : Snapshot) (m : Memory),
    m ∈ P → m.name ∉ memNames s.visible → m.name ∉ memNames s.store →
    (P.map Memory.name).Nodup → m ∈ (addAllCaught s P).visible := by
  induction P with
  | nil => intro s m hm _ _ _; exact absurd hm (List.not_mem_nil m)
  | cons p rest ih =>
    intro s m hm hv hst hnd
    have hnd2 : (rest.map Memory.name).Nodup := (List.nodup_cons.mp hnd).2
    rcases List.mem_cons.mp hm with he | hr
    · subst he
      have hok := force_add_ok_of_not_mem s m hv hst
      rw [addAllCaught, hok]
      exact addAllCaught_mem_preserved rest _ m (by simp)
    · have hmn : m.name ∈ rest.map Memory.name := List.mem_map_of_mem Memory.name hr
      have hpn : p.name ≠ m.name := by
        intro he
        exact (List.nodup_cons.mp hnd).1 (he ▸ hmn)
      cases hfa : force_add_memory s p with
      | error e =>
        rw [addAllCaught, hfa]
        exact ih s m hr hv hst hnd2
      | ok s2 =>
        rw [addAllCaught, hfa]
        obtain ⟨_, _, hs2⟩ := force_add_ok_inv hfa
        refine ih s2 m hr ?_ ?_ hnd2
        · rw [hs2]
          show m.name ∉ memNames (s.visible ++ [p])
          rw [memNames_append]
          intro hc
          rcases List.mem_append.mp hc with h1 | h1
          · exact hv h1
          · have he2 : m.name = p.name := by simpa [memNames] using h1
            exact hpn he2.symm
        · rw [hs2]
          show m.name ∉ memNames (s.store ++ [p])
          rw [memNames_append]
          intro hc
          rcases List.mem_append.mp hc with h1 | h1
          · exact hst h1
          · have he2 : m.name = p.name := by simpa [memNames] using h1
            exact hpn he2.symm

/-- Claim C6: in `full_update`, when the proposed new memories contain an
entry `d` whose name already exists (in the visible list or the store) while
the other proposals are fresh with pairwise-distinct names, the operation
completes (it is a total function - every ValueError in the batch loops is
caught): the add phase appends exactly `addedSuffix` to `visible`, no
appended entry carries the duplicate name, every other proposed memory is
appended, and only afterwards are the content updates and the relevance delta
applied (first conjunct, definitional phase order). -/
theorem c6_full_update_skips_duplicate
    (s : Snapshot) (new upd : List Memory) (rel : List String) (delta : Int) (d : Memory)
    (_hd : d ∈ new)
    (hdup : d.name ∈ memNames s.visible ∨ d.name ∈ memNames s.store)
    (hothers : ∀ m ∈ new, m.name ≠ d.name →
      m.name ∉ memNames s.visible ∧ m.name ∉ memNames s.store)
    (hnd : (new.map Memory.name).Nodup) :
    full_update s new upd rel delta
      = forceUpdateRelevanceSnap
          (forceUpdateAllCaught (addAllCaught s new) upd)
          (dictFromNames rel delta) ∧
    (addAllCaught s new).visible = s.visible ++ addedSuffix s new ∧
    (∀ a ∈ addedSuffix s new, a.name ≠ d.name) ∧
    (∀ m ∈ new, m.name ≠ d.name → m ∈ addedSuffix s new) := by
  obtain ⟨A, h1, h2, h3, h4⟩ := addAllCaught_decomp new s
  have hA : addedSuffix s new = A := by
    rw [addedSuffix, h2]
    exact List.drop_left _ _
  refine ⟨rfl, by rw [hA]; exact h2, ?_, ?_⟩
  · rw [hA]
    intro a ha he
    obtain ⟨_, p2, p3⟩ := h4 a ha
    exact hdup.elim (fun hc => p2 (he ▸ hc)) (fun hc => p3 (he ▸ hc))
  · intro m hm hne
    obtain ⟨mv, mst⟩ := hothers m hm hne
    have hin := addAllCaught_adds new s m hm mv mst hnd
    rw [h2] at hin
    rcases List.mem_append.mp hin with hL | hR
    · exact absurd (List.mem_map_of_mem Memory.name hL) mv
    · rw [hA]
      exact hR

/-- Witness for C6 at concrete inputs: proposing a duplicate of A together
with a fresh B onto a snapshot already holding A appends exactly the B-suffix
and B is in it. -/
theorem c6_full_update_skips_duplicate_witness :
    (addAllCaught ⟨[⟨"A", "a", "1"⟩], [⟨"A", "a", "1"⟩], []⟩
        [⟨"A", "a", "dup"⟩, ⟨"B", "b", "2"⟩]).visible
      = [⟨"A", "a", "1"⟩]
        ++ addedSuffix ⟨[⟨"A", "a", "1"⟩], [⟨"A", "a", "1"⟩], []⟩
             [⟨"A", "a", "dup"⟩, ⟨"B", "b", "2"⟩] ∧
    (⟨"B", "b", "2"⟩ : Memory)
      ∈ addedSuffix ⟨[⟨"A", "a", "1"⟩], [⟨"A", "a", "1"⟩], []⟩
          [⟨"A", "a", "dup"⟩, ⟨"B", "b", "2"⟩] :=
  ⟨(c6_full_update_skips_duplicate ⟨[⟨"A", "a", "1"⟩], [⟨"A", "a", "1"⟩], []⟩
      [⟨"A", "a", "dup"⟩, ⟨"B", "b", "2"⟩] [] ["A"] 3 ⟨"A", "a", "dup"⟩
      (by decide) (by decide) (by decide) (by decide)).2.1,
   (c6_full_update_skips_duplicate ⟨[⟨"A", "a", "1"⟩], [⟨"A", "a", "1"⟩], []⟩
      [⟨"A", "a", "dup"⟩, ⟨"B", "b", "2"⟩] [] ["A"] 3 ⟨"A", "a", "dup"⟩
      (by decide) (by decide) (by decide) (by decide)).2.2.2
     ⟨"B", "b", "2"⟩ (by decide) (by decide)⟩

/-- `LlmAbility.update_memory` (`memory_server/llm_ability.py` lines 117-150):
the UpdateSingleMemory exchange yields `new_memory_block`, and the returned
Memory reuses the old memory's name and abstract.  The oracle's reply is
abstracted as the `new_block` argument. -/
def llm_update_memory (old : Memory) (new_block : String) : Memory :=
  { name := old.name, abstract := old.abstract, memory_block := new_block }

/-- `LlmAbility.list_memory_to_update` (`memory_server/llm_ability.py` lines
152-180): the oracle's `memories_to_update` name list (`resp`) is used to
filter the `current_memory` abstracts:
`[memory for memory in current_memory if memory.name in
response.memories_to_update]`. -/
def list_memory_to_update (current : List MemoryAbstract) (resp : List String) :
    List MemoryAbstract :=
  current.filter (fun m => resp.contains m.name)

/-- `InMemoryMemoryRepository.fetch_memory_by_name`: first stored memory with
the name, else None. -/
def fetch_memory_by_name (store : List Memory) (n : String) : Option Memory :=
  store.find? (fun m => m.name == n)

/-- `InMemoryMemoryRepository.fetch_all_memories_abstract`. -/
def fetch_all_memories_abstract (store : List Memory) : List MemoryAbstract :=
  store.map (fun m => { name := m.name, abstract := m.abstract })

/-- `asyncio.gather` over a list of `Except` computations: order-preserving,
and if any member fails the whole join fails with that error. -/
def exceptMapList {α β : Type} (f : α → Except String β) : List α → Except String (List β)
  | [] => .ok []
  | a :: rest =>
    match f a with
    | .error e => .error e
    | .ok b =>
      match exceptMapList f rest with
      | .error e => .error e
      | .ok bs => .ok (b :: bs)

/-- `MemoryManager._get_updated_memory` (`memory/manager.py` lines 314-338):
fetch the old memory from the repository (ValueError if missing), then ask
the oracle for the replacement block of that memory. -/
def get_updated_memory (store : List Memory) (oracle_block : Memory → String)
    (a : MemoryAbstract) : Except String Memory :=
  match fetch_memory_by_name store a.name with
  | none => .error "Memory does not exist"
  | some old => .ok (llm_update_memory old (oracle_block old))

/-- `MemoryManager._get_updated_memories` (`memory/manager.py` lines 340-365):
filter via `list_memory_to_update`, then fan out `_get_updated_memory` over
the filtered abstracts with `gather`. -/
def get_updated_memories (store : List Memory) (oracle_block : Memory → String)
    (current : List MemoryAbstract) (resp : List String) : Except String (List Memory) :=
  exceptMapList (get_updated_memory store oracle_block) (list_memory_to_update current resp)

/-- The sequential application loop of `update_existing_memories`
(`memory/manager.py` lines 196-199): `force_update_memory` with no
try/except, so the first ValueError propagates. -/
def forceUpdateAll (s : Snapshot) : List Memory → Except String Snapshot
  | [] => .ok s
  | m :: rest =>
    match force_update_memory s m with
    | .ok s2 => forceUpdateAll s2 rest
    | .error e => .error e

/-- `MemoryManager.update_existing_memories` (`memory/manager.py` lines
174-199), parameterized by the oracle's `memories_to_update` reply (`resp`)
and its per-memory replacement blocks (`oracle_block`). -/
def update_existing_memories (s : Snapshot) (resp : List String)
    (oracle_block : Memory → String) : Except String Snapshot :=
  match get_updated_memories s.store oracle_block (fetch_all_memories_abstract s.store) resp with
  | .error e => .error e
  | .ok ms => forceUpdateAll s ms

/-- Name-keyed variant of `_get_updated_memory`, used by the spec-order
reading below. -/
def get_updated_memory_by_name (store : List Memory) (oracle_block : Memory → String)
    (n : String) : Except String Memory :=
  match fetch_memory_by_name store n with
  | none => .error "Memory does not exist"
  | some old => .ok (llm_update_memory old (oracle_block old))

/-- Modelled from the spec (claim C3's reading): apply the per-name updates
"sequentially, in the order the oracle's name list was returned", keeping
only names that exist among the current abstracts. -/
def update_existing_memories_spec_order (s : Snapshot) (resp : List String)
    (oracle_block : Memory → String) : Except String Snapshot :=
  match
    exceptMapList (get_updated_memory_by_name s.store oracle_block)
      (resp.filter (fun n =>
        (fetch_all_memories_abstract s.store).any (fun a => a.name == n)))
  with
  | .error e => .error e
  | .ok ms => forceUpdateAll s ms

/-- Counterexample to claim C3: with the store listing A before B and the
oracle returning the names in the order [B, A], the code updates A first and
B second (the filter iterates the store's abstract listing), ending with
visible/store order [A-updated, B-updated]; applying in the oracle's returned
order would end with [B-updated, A-updated], a different snapshot. -/
theorem c3_counterexample_oracle_order_ignored :
    update_existing_memories
        ⟨[⟨"A", "a", "1"⟩, ⟨"B", "b", "2"⟩], [⟨"A", "a", "1"⟩, ⟨"B", "b", "2"⟩], []⟩
        ["B", "A"] (fun _ => "upd")
      = .ok ⟨[⟨"A", "a", "upd"⟩, ⟨"B", "b", "upd"⟩],
             [⟨"A", "a", "upd"⟩, ⟨"B", "b", "upd"⟩], []⟩ ∧
    update_existing_memories_spec_order
        ⟨[⟨"A", "a", "1"⟩, ⟨"B", "b", "2"⟩], [⟨"A", "a", "1"⟩, ⟨"B", "b", "2"⟩], []⟩
        ["B", "A"] (fun _ => "upd")
      = .ok ⟨[⟨"B", "b", "upd"⟩, ⟨"A", "a", "upd"⟩],
             [⟨"B", "b", "upd"⟩, ⟨"A", "a", "upd"⟩], []⟩ ∧
    (⟨[⟨"A", "a", "upd"⟩, ⟨"B", "b", "upd"⟩],
      [⟨"A", "a", "upd"⟩, ⟨"B", "b", "upd"⟩], []⟩ : Snapshot)
      ≠ ⟨[⟨"B", "b", "upd"⟩, ⟨"A", "a", "upd"⟩],
         [⟨"B", "b", "upd"⟩, ⟨"A", "a", "upd"⟩], []⟩ :=
  ⟨rfl, rfl, by decide⟩

/-- Claim C3 amended: `update_existing_memories` applies the fan-out results
sequentially in the order of the store's abstract listing (the
`current_memory` order of `list_memory_to_update`'s filter), and the oracle's
response order is immaterial: two responses naming the same set of memories
yield identical results.  The selected abstracts form a sublist of the
store's abstract listing order. -/
theorem c3_amended_store_order (s : Snapshot) (resp1 resp2 : List String)
    (oracle_block : Memory → String)
    (h : ∀ n : String, n ∈ resp1 ↔ n ∈ resp2) :
    update_existing_memories s resp1 oracle_block
      = update_existing_memories s resp2 oracle_block ∧
    (list_memory_to_update (fetch_all_memories_abstract s.store) resp1).Sublist
      (fetch_all_memories_abstract s.store) := by
  have hfilter : ∀ current : List MemoryAbstract,
      list_memory_to_update current resp1 = list_memory_to_update current resp2 := by
    intro current
    unfold list_memory_to_update
    apply List.filter_congr
    intro a _
    have h1 : resp1.elem a.name = true ↔ a.name ∈ resp1 := List.elem_iff
    have h2 : resp2.elem a.name = true ↔ a.name ∈ resp2 := List.elem_iff
    by_cases hm : a.name ∈ resp1
    · have hm2 : a.name ∈ resp2 := (h a.name).mp hm
      show resp1.elem a.name = resp2.elem a.name
      rw [h1.mpr hm, h2.mpr hm2]
    · have hm2 : a.name ∉ resp2 := fun hc => hm ((h a.name).mpr hc)
      show resp1.elem a.name = resp2.elem a.name
      rw [Bool.eq_false_iff.mpr (fun hc => hm (h1.mp hc)),
        Bool.eq_false_iff.mpr (fun hc => hm2 (h2.mp hc))]
  constructor
  · unfold update_existing_memories get_updated_memories
    rw [hfilter]
  · exact List.filter_sublist _

/-- Witness for the amended C3 at concrete inputs: the oracle answers
["B", "A"] and ["A", "B", "A"] name the same set, so the results coincide,
and the filtered selection is a sublist of the store listing. -/
theorem c3_amended_store_order_witness :
    update_existing_memories
        ⟨[⟨"A", "a", "1"⟩, ⟨"B", "b", "2"⟩], [⟨"A", "a", "1"⟩, ⟨"B", "b", "2"⟩], []⟩
        ["B", "A"] (fun _ => "upd")
      = update_existing_memories
          ⟨[⟨"A", "a", "1"⟩, ⟨"B", "b", "2"⟩], [⟨"A", "a", "1"⟩, ⟨"B", "b", "2"⟩], []⟩
          ["A", "B", "A"] (fun _ => "upd") ∧
    (list_memory_to_update
        (fetch_all_memories_abstract [⟨"A", "a", "1"⟩, ⟨"B", "b", "2"⟩])
        ["B", "A"]).Sublist
      (fetch_all_memories_abstract [⟨"A", "a", "1"⟩, ⟨"B", "b", "2"⟩]) :=
  c3_amended_store_order
    ⟨[⟨"A", "a", "1"⟩, ⟨"B", "b", "2"⟩], [⟨"A", "a", "1"⟩, ⟨"B", "b", "2"⟩], []⟩
    ["B", "A"] ["A", "B", "A"] (fun _ => "upd")
    (by intro n; simp only [List.mem_cons, List.not_mem_nil, or_false]; tauto)

lemma exceptMapList_ok_forall {α β : Type} {f : α → Except String β} :
    ∀ {l : List α} {ms : List β}, exceptMapList f l = .ok ms →
      ∀ m ∈ ms, ∃ a ∈ l, f a = .ok m := by
  intro l
  induction l with
  | nil =>
    intro ms h m hm
    simp [exceptMapList] at h
    exact absurd (h ▸ hm) (List.not_mem_nil m)
  | cons a rest ih =>
    intro ms h m hm
    cases hfa : f a with
    | error e => rw [exceptMapList, hfa] at h; exact absurd h (by simp)
    | ok b =>
      rw [exceptMapList, hfa] at h
      cases hrest : exceptMapList f rest with
      | error e => rw [hrest] at h; exact absurd h (by simp)
      | ok bs =>
        rw [hrest] at h
        have hms : ms = b :: bs := by
          have := h
          simp at this
          exact this.symm
        rw [hms] at hm
        rcases List.mem_cons.mp hm with he | hb
        · exact ⟨a, List.mem_cons_self a rest, he ▸ hfa⟩
        · obtain ⟨a2, ha2, hfa2⟩ := ih hrest m hb
          exact ⟨a2, List.mem_cons_of_mem a ha2, hfa2⟩

/-- Claim C10: the memories selected for content update are a subset of the
current store abstracts; any oracle-returned name matching no current
abstract is discarded by the filter, and consequently every memory produced
by the fan-out carries a name from the current abstracts - a hallucinated
name never reaches `force_update_memory`. -/
theorem c10_hallucinated_names_filtered (store : List Memory)
    (oracle_block : Memory → String) (current : List MemoryAbstract)
    (resp : List String) (n : String)
    (hn : n ∉ current.map MemoryAbstract.name) :
    (∀ a ∈ list_memory_to_update current resp, a ∈ current) ∧
    (∀ a ∈ list_memory_to_update current resp, a.name ≠ n) ∧
    (∀ ms : List Memory, get_updated_memories store oracle_block current resp = .ok ms →
      ∀ m ∈ ms, m.name ∈ current.map MemoryAbstract.name) := by
  refine ⟨?_, ?_, ?_⟩
  · intro a ha
    exact List.mem_of_mem_filter ha
  · intro a ha he
    exact hn (he ▸ List.mem_map_of_mem MemoryAbstract.name (List.mem_of_mem_filter ha))
  · intro ms hok m hm
    obtain ⟨a, ha, hfa⟩ := exceptMapList_ok_forall hok m hm
    have ha2 : a ∈ current := List.mem_of_mem_filter ha
    cases hfetch : fetch_memory_by_name store a.name with
    | none => rw [get_updated_memory, hfetch] at hfa; exact absurd hfa (by simp)
    | some old =>
      rw [get_updated_memory, hfetch] at hfa
      have hold : old.name = a.name := by
        have := List.find?_some hfetch
        simpa using this
      have hmname : m.name = a.name := by
        have hinj : llm_update_memory old (oracle_block old) = m := by
          simpa using hfa
        rw [← hinj]
        simpa [llm_update_memory] using hold
      rw [hmname]
      exact List.mem_map_of_mem MemoryAbstract.name ha2

/-- Witness for C10 at concrete inputs: the hallucinated name H is discarded,
so its abstract does not survive the filter. -/
theorem c10_hallucinated_names_filtered_witness :
    (⟨"H", "h"⟩ : MemoryAbstract)
      ∉ list_memory_to_update [⟨"A", "a"⟩] ["H", "A"] :=
  fun hc =>
    (c10_hallucinated_names_filtered [] (fun _ => "upd") [⟨"A", "a"⟩] ["H", "A"] "H"
      (by decide)).2.1 ⟨"H", "h"⟩ hc rfl

/-- The ranking key used by `refresh_visible_memory_list`:
`self.relevance_map.get(x.name, 0)`. -/
def relKey (relevance : RelevanceMap) (a : MemoryAbstract) : Int :=
  (dictGet relevance a.name).getD 0

/-- The descending comparison that `sorted(..., key=..., reverse=True)`
orders by. -/
def rankRel (key : MemoryAbstract → Int) (a b : MemoryAbstract) : Prop :=
  key b ≤ key a

instance (key : MemoryAbstract → Int) : DecidableRel (rankRel key) :=
  fun a b => inferInstanceAs (Decidable (key b ≤ key a))

instance (key : MemoryAbstract → Int) : IsTotal MemoryAbstract (rankRel key) :=
  ⟨fun a b => le_total (key b) (key a)⟩

instance (key : MemoryAbstract → Int) : IsTrans MemoryAbstract (rankRel key) :=
  ⟨fun _ _ _ hab hbc => le_trans hbc hab⟩

/-- Python's `sorted(l, key=key, reverse=True)` - a stable descending sort.
Timsort and insertion sort are both stable, and a stable sort's output is
uniquely determined by the key order together with the input order, so
insertion sort over the non-strict descending comparison is exactly the
CPython result. -/
def pySortedDesc (key : MemoryAbstract → Int) (l : List MemoryAbstract) :
    List MemoryAbstract :=
  List.insertionSort (rankRel key) l

/-- Python's slice `l[:limit]` for an arbitrary (possibly negative) int. -/
def pySliceTo (l : List MemoryAbstract) (limit : Int) : List MemoryAbstract :=
  if 0 ≤ limit then l.take limit.toNat
  else l.take ((l.length : Int) + limit).toNat

/-- `MemoryManager.refresh_visible_memory_list` (`memory/manager.py` lines
230-266) against the abstract repository interface: `abstracts` embeds the
`fetch_all_memories_abstract()` result, `fetch` the repository's
`fetch_memory_by_name`; sort by relevance count descending (stable), slice to
`limit`, fetch each selected name's full memory and keep only the hits
(`if memory:` silently skips a missed fetch). -/
def refresh_visible_memory_list (abstracts : List MemoryAbstract)
    (fetch : String → Option Memory) (relevance : RelevanceMap) (limit : Int) :
    List Memory :=
  (pySliceTo (pySortedDesc (relKey relevance) abstracts) limit).filterMap
    (fun a => fetch a.name)

/-- Example store of the spec's ranking scenario: A, B, C. -/
def exStore : List Memory :=
  [⟨"A", "a", "1"⟩, ⟨"B", "b", "2"⟩, ⟨"C", "c", "3"⟩]

/-- Its abstract listing. -/
def exAbstracts : List MemoryAbstract :=
  fetch_all_memories_abstract exStore

/-- The spec's relevance counts A=5, B=3, C=1. -/
def exRelevance : RelevanceMap :=
  [("A", 5), ("B", 3), ("C", 1)]

/-- Counterexample to claim C4's clamping clause: with three stored memories
(counts A=5, B=3, C=1) and `limit = -1`, the Python slice `sorted[:limit]`
keeps the first two entries instead of clamping the limit into `[0, count]`
(which would select none), so `refresh_visible_memory_list` returns [A, B],
not `[]`. -/
theorem c4_counterexample_negative_limit :
    refresh_visible_memory_list exAbstracts (fetch_memory_by_name exStore)
        exRelevance (-1)
      = [⟨"A", "a", "1"⟩, ⟨"B", "b", "2"⟩] ∧
    ([⟨"A", "a", "1"⟩, ⟨"B", "b", "2"⟩] : List Memory) ≠ [] := by
  refine ⟨?_, by decide⟩
  decide

lemma orderedInsert_filter_key (key : MemoryAbstract → Int) (k : Int)
    (a : MemoryAbstract) :
    ∀ l : List MemoryAbstract, List.Pairwise (rankRel key) l →
      (List.orderedInsert (rankRel key) a l).filter (fun x => decide (key x = k))
        = if key a = k
          then a :: l.filter (fun x => decide (key x = k))
          else l.filter (fun x => decide (key x = k)) := by
  intro l
  induction l with
  | nil =>
    intro _
    by_cases hak : key a = k
    · simp [List.orderedInsert, hak]
    · simp [List.orderedInsert, hak]
  | cons b l ih =>
    intro hp
    rw [List.orderedInsert]
    by_cases hab : rankRel key a b
    · rw [if_pos hab]
      by_cases hak : key a = k
      · simp [List.filter_cons, hak]
      · simp [List.filter_cons, hak]
    · rw [if_neg hab]
      have hlt : key a < key b := lt_of_not_le hab
      have htail := ih (List.pairwise_cons.mp hp).2
      by_cases hak : key a = k
      · have hbk : ¬ key b = k := by
          intro hbe
          rw [hak] at hlt
          rw [hbe] at hlt
          exact lt_irrefl k hlt
        rw [if_pos hak] at htail ⊢
        simp [List.filter_cons, hbk, htail]
      · rw [if_neg hak] at htail ⊢
        by_cases hbk : key b = k
        · simp [List.filter_cons, hbk, htail]
        · simp [List.filter_cons, hbk, htail]

lemma pySortedDesc_filter_key (key : MemoryAbstract → Int) (k : Int) :
    ∀ l : List MemoryAbstract,
      (pySortedDesc key l).filter (fun x => decide (key x = k))
        = l.filter (fun x => decide (key x = k)) := by
  intro l
  induction l with
  | nil => rfl
  | cons a l ih =>
    have ih2 : (List.insertionSort (rankRel key) l).filter (fun x => decide (key x = k))
        = l.filter (fun x => decide (key x = k)) := ih
    show (List.orderedInsert (rankRel key) a
        (List.insertionSort (rankRel key) l)).filter (fun x => decide (key x = k)) = _
    rw [orderedInsert_filter_key key k a _
      (List.sorted_insertionSort (rankRel key) l)]
    by_cases hak : key a = k
    · rw [if_pos hak]
      simp [List.filter_cons, hak, ih2]
    · rw [if_neg hak]
      simp [List.filter_cons, hak, ih2]

/-- Claim C4 amended: for `limit ≥ 0`, `refresh_visible_memory_list` sorts
the store abstracts descending by relevance count (absent names count 0),
ties broken by the store's abstract-listing order (stable sort: per key-class
filtering is the identity), takes the first `limit` entries (so the selected
length is `limit` clamped to the abstract count), and keeps the fetch hits of
the selection in order, silently dropping misses.  For negative `limit` the
Python slice instead keeps the first `count + limit` entries (clamped at 0),
which is what forces the `limit ≥ 0` hypothesis. -/
theorem c4_amended_refresh (abstracts : List MemoryAbstract)
    (fetch : String → Option Memory) (relevance : RelevanceMap) (limit : Int)
    (h : 0 ≤ limit) :
    (pySortedDesc (relKey relevance) abstracts).Perm abstracts ∧
    List.Pairwise (fun a b => relKey relevance b ≤ relKey relevance a)
      (pySortedDesc (relKey relevance) abstracts) ∧
    (∀ k : Int,
      (pySortedDesc (relKey relevance) abstracts).filter
          (fun x => decide (relKey relevance x = k))
        = abstracts.filter (fun x => decide (relKey relevance x = k))) ∧
    pySliceTo (pySortedDesc (relKey relevance) abstracts) limit
      = (pySortedDesc (relKey relevance) abstracts).take limit.toNat ∧
    (pySliceTo (pySortedDesc (relKey relevance) abstracts) limit).length
      = min limit.toNat abstracts.length ∧
    refresh_visible_memory_list abstracts fetch relevance limit
      = (pySliceTo (pySortedDesc (relKey relevance) abstracts) limit).filterMap
          (fun a => fetch a.name) := by
  have hperm : (pySortedDesc (relKey relevance) abstracts).Perm abstracts :=
    List.perm_insertionSort _ _
  have hslice : pySliceTo (pySortedDesc (relKey relevance) abstracts) limit
      = (pySortedDesc (relKey relevance) abstracts).take limit.toNat := by
    rw [pySliceTo, if_pos h]
  refine ⟨hperm, ?_, ?_, hslice, ?_, rfl⟩
  · exact List.sorted_insertionSort (rankRel (relKey relevance)) abstracts
  · intro k
    exact pySortedDesc_filter_key (relKey relevance) k abstracts
  · rw [hslice, List.length_take, hperm.length_eq]

/-- Witness for the amended C4 at the spec's ranking scenario (counts A=5,
B=3, C=1): `limit = 2` selects exactly two entries and yields [A, B];
`limit = 0` yields `[]`; `limit = 100` over three memories yields all
three. -/
theorem c4_amended_refresh_witness :
    (pySliceTo (pySortedDesc (relKey exRelevance) exAbstracts) 2).length
      = min ((2 : Int)).toNat exAbstracts.length ∧
    refresh_visible_memory_list exAbstracts (fetch_memory_by_name exStore)
        exRelevance 2
      = [⟨"A", "a", "1"⟩, ⟨"B", "b", "2"⟩] ∧
    refresh_visible_memory_list exAbstracts (fetch_memory_by_name exStore)
        exRelevance 0 = [] ∧
    refresh_visible_memory_list exAbstracts (fetch_memory_by_name exStore)
        exRelevance 100
      = [⟨"A", "a", "1"⟩, ⟨"B", "b", "2"⟩, ⟨"C", "c", "3"⟩] :=
  ⟨(c4_amended_refresh exAbstracts (fetch_memory_by_name exStore) exRelevance 2
      (by decide)).2.2.2.2.1,
   by decide, by decide, by decide⟩

/-- The opening brace character, written by code point. -/
def obr : Char := Char.ofNat 123

/-- The closing brace character, written by code point. -/
def cbr : Char := Char.ofNat 125

/-- The extraction step of `LlmAbility._safe_cast` (`memory/llm_ability.py`
line 80, `memory_server/llm_ability.py` line 82): `re.search` with the DOTALL
pattern of an opening brace, a greedy dot-star and a closing brace, i.e. the
substring from the first opening brace to the last closing brace after it,
inclusive; `none` when the text holds no such pair.  The response text is
embedded as a list of characters. -/
def extractJson (s : List Char) : Option (List Char) :=
  match s.dropWhile (fun c => !(c == obr)) with
  | [] => none
  | c :: tail =>
    match tail.reverse.dropWhile (fun c2 => !(c2 == cbr)) with
    | [] => none
    | c2 :: revMid => some (c :: (revMid.reverse ++ [c2]))

/-- `LlmAbility._safe_cast` (both revisions, lines 60-88): extract the brace
substring (ValueError "Invalid JSON string" when absent), then `json.loads`
plus `model_validate` - abstracted as the fallible `parse` - whose failures
also raise.  No retry happens anywhere in this path. -/
def safe_cast {T : Type} (parse : List Char → Option T) (value : List Char) :
    Except String T :=
  match extractJson value with
  | none => .error "Invalid JSON string"
  | some sub =>
    match parse sub with
    | none => .error "ValidationError"
    | some t => .ok t

/-- `MemoryManager.update_relevance_map` (`memory/manager.py` lines 268-289)
at the raw-response level, as a representative enclosing operation:
`list_related_memories` itself is absent from the sources (only its call
sites exist), and per the spec its FindAssociatedMemories exchange parses the
associated names out of the raw oracle reply with `_safe_cast`; the operation
builds the delta dict over the returned names and applies
`force_update_relevance_map`.  No handler intervenes, so a `_safe_cast`
failure propagates to the caller. -/
def update_relevance_from_raw (s : Snapshot)
    (parseNames : List Char → Option (List String)) (raw : List Char) (delta : Int) :
    Except String Snapshot :=
  match safe_cast parseNames raw with
  | .error e => .error e
  | .ok names => .ok (forceUpdateRelevanceSnap s (dictFromNames names delta))

lemma dropWhile_append_of_all {p : Char → Bool} :
    ∀ (pre l : List Char), (∀ x ∈ pre, p x = true) →
      (pre ++ l).dropWhile p = l.dropWhile p := by
  intro pre
  induction pre with
  | nil => intro l _; rfl
  | cons a rest ih =>
    intro l hall
    rw [List.cons_append, List.dropWhile_cons,
      if_pos (hall a (List.mem_cons_self a rest))]
    exact ih l (fun x hx => hall x (List.mem_cons_of_mem a hx))

lemma dropWhile_head_false {p : Char → Bool} :
    ∀ {s : List Char} {c : Char} {tail : List Char},
      s.dropWhile p = c :: tail → p c = false := by
  intro s
  induction s with
  | nil => intro c t h; exact absurd h (by simp)
  | cons a rest ih =>
    intro c t h
    rw [List.dropWhile_cons] at h
    by_cases hp : p a = true
    · rw [if_pos hp] at h
      exact ih h
    · rw [if_neg hp] at h
      have h1 : a = c := (List.cons.injEq a rest c t ▸ h).1
      rw [← h1]
      exact Bool.eq_false_iff.mpr hp

lemma dropWhile_decomp {p : Char → Bool} {s : List Char} {c : Char}
    {tail : List Char} (h : s.dropWhile p = c :: tail) :
    s = s.takeWhile p ++ c :: tail ∧ ∀ x ∈ s.takeWhile p, p x = true := by
  constructor
  · conv_lhs => rw [← List.takeWhile_append_dropWhile p s]
    rw [h]
  · exact fun x hx => List.mem_takeWhile_imp hx

lemma extractJson_eq_none_left {s : List Char}
    (h : s.dropWhile (fun c => !(c == obr)) = []) : extractJson s = none := by
  unfold extractJson
  rw [h]

lemma extractJson_eq_of_cons {s : List Char} {c : Char} {tail : List Char}
    (h : s.dropWhile (fun c => !(c == obr)) = c :: tail) :
    extractJson s
      = match tail.reverse.dropWhile (fun c2 => !(c2 == cbr)) with
        | [] => none
        | c2 :: revMid => some (c :: (revMid.reverse ++ [c2])) := by
  unfold extractJson
  rw [h]

/-- Claim C7: the structured-exchange parser takes exactly the substring from
the first opening brace to the last closing brace inclusive, tolerating
surrounding prose (first conjunct); when the text holds no such brace pair
the exchange fails with the ValueError (second conjunct); and the failure is
not caught anywhere - a representative enclosing Manager operation returns
the very same error (third conjunct).  JSON decoding and schema validation
are abstracted as the fallible `parse` functions. -/
theorem c7_parser_first_to_last {T : Type} (parse : List Char → Option T)
    (s pre mid post : List Char) (snap : Snapshot) (delta : Int)
    (parseNames : List Char → Option (List String)) :
    (obr ∉ pre → cbr ∉ post →
      extractJson (pre ++ obr :: (mid ++ cbr :: post))
        = some (obr :: (mid ++ [cbr]))) ∧
    ((¬ ∃ a m b : List Char, s = a ++ obr :: (m ++ cbr :: b)) →
      safe_cast parse s = .error "Invalid JSON string") ∧
    (∀ e : String, safe_cast parseNames s = .error e →
      update_relevance_from_raw snap parseNames s delta = .error e) := by
  refine ⟨?_, ?_, ?_⟩
  · intro h1 h2
    have hall1 : ∀ x ∈ pre, (fun c => !(c == obr)) x = true := by
      intro x hx
      have hne : x ≠ obr := fun he => h1 (he ▸ hx)
      simp [hne]
    have hd1 : (pre ++ obr :: (mid ++ cbr :: post)).dropWhile (fun c => !(c == obr))
        = obr :: (mid ++ cbr :: post) := by
      rw [dropWhile_append_of_all pre (obr :: (mid ++ cbr :: post)) hall1,
        List.dropWhile_cons]
      simp
    rw [extractJson_eq_of_cons hd1]
    have hall2 : ∀ x ∈ post.reverse, (fun c2 => !(c2 == cbr)) x = true := by
      intro x hx
      have hne : x ≠ cbr := fun he => h2 (he ▸ (List.mem_reverse.mp hx))
      simp [hne]
    have hd2 : (mid ++ cbr :: post).reverse.dropWhile (fun c2 => !(c2 == cbr))
        = cbr :: mid.reverse := by
      rw [List.reverse_append, List.reverse_cons, List.append_assoc,
        dropWhile_append_of_all post.reverse ([cbr] ++ mid.reverse) hall2,
        List.singleton_append, List.dropWhile_cons]
      simp
    rw [hd2]
    show some (obr :: (mid.reverse.reverse ++ [cbr])) = some (obr :: (mid ++ [cbr]))
    rw [List.reverse_reverse]
  · intro hno
    unfold safe_cast
    cases hext : extractJson s with
    | none => rfl
    | some t =>
      exfalso
      apply hno
      cases hd1 : s.dropWhile (fun c => !(c == obr)) with
      | nil => rw [extractJson_eq_none_left hd1] at hext; exact absurd hext (by simp)
      | cons c tail =>
        rw [extractJson_eq_of_cons hd1] at hext
        cases hd2 : tail.reverse.dropWhile (fun c2 => !(c2 == cbr)) with
        | nil =>
          rw [hd2] at hext
          simp at hext
        | cons c2 revMid =>
          have hc : c = obr := by
            have hf := dropWhile_head_false hd1
            simpa using hf
          have hc2 : c2 = cbr := by
            have hf := dropWhile_head_false hd2
            simpa using hf
          obtain ⟨hsdec, _⟩ := dropWhile_decomp hd1
          obtain ⟨htdec, _⟩ := dropWhile_decomp hd2
          refine ⟨s.takeWhile (fun c3 => !(c3 == obr)), revMid.reverse,
            (tail.reverse.takeWhile (fun c3 => !(c3 == cbr))).reverse, ?_⟩
          have htail : tail = revMid.reverse
              ++ cbr :: (tail.reverse.takeWhile (fun c3 => !(c3 == cbr))).reverse := by
            have hrr : tail = tail.reverse.reverse := (List.reverse_reverse tail).symm
            calc tail = tail.reverse.reverse := hrr
              _ = (tail.reverse.takeWhile (fun c3 => !(c3 == cbr))
                    ++ c2 :: revMid).reverse := by rw [← htdec]
              _ = revMid.reverse ++ cbr
                    :: (tail.reverse.takeWhile (fun c3 => !(c3 == cbr))).reverse := by
                  rw [hc2]
                  simp
          calc s = s.takeWhile (fun c3 => !(c3 == obr)) ++ c :: tail := hsdec
            _ = s.takeWhile (fun c3 => !(c3 == obr))
                  ++ obr :: (revMid.reverse ++ cbr
                    :: (tail.reverse.takeWhile (fun c3 => !(c3 == cbr))).reverse) := by
                rw [hc, ← htail]
  · intro e he
    unfold update_relevance_from_raw
    rw [he]

/-- Witness for C7 at concrete inputs: prose x-brace-a-brace-y extracts the
braced middle; a brace-free text makes `_safe_cast` fail, and the enclosing
relevance-update operation returns the very same error. -/
theorem c7_parser_first_to_last_witness :
    extractJson ['x', obr, 'a', cbr, 'y'] = some [obr, 'a', cbr] ∧
    safe_cast (fun _ => (none : Option (List String))) ['a']
      = .error "Invalid JSON string" ∧
    update_relevance_from_raw ⟨[], [], []⟩ (fun _ => none) ['a'] 1
      = .error "Invalid JSON string" := by
  have hnopair : ¬ ∃ a m b : List Char, ['a'] = a ++ obr :: (m ++ cbr :: b) := by
    rintro ⟨a, m, b, hab⟩
    have hlen := congrArg List.length hab
    simp [List.length_append] at hlen
    omega
  have hmain := c7_parser_first_to_last (fun _ => (none : Option (List String)))
    ['a'] ['x'] ['a'] ['y'] ⟨[], [], []⟩ 1 (fun _ => none)
  refine ⟨?_, ?_, ?_⟩
  · exact hmain.1 (by decide) (by decide)
  · exact hmain.2.1 hnopair
  · exact hmain.2.2 "Invalid JSON string" (hmain.2.1 hnopair)

lemma removeFirstByName_append_of_notmem :
    ∀ (pre rest : List Memory) (n : String), n ∉ memNames pre →
      removeFirstByName (pre ++ rest) n
        = (removeFirstByName rest n).map (fun r => pre ++ r) := by
  intro pre
  induction pre with
  | nil =>
    intro rest n _
    cases h : removeFirstByName rest n <;> simp [h]
  | cons a pre ih =>
    intro rest n hn
    have ha : a.name ≠ n := fun he => hn (by simp [memNames, he])
    have hn2 : n ∉ memNames pre := fun hc => hn (by simp [memNames]; right; simpa [memNames] using hc)
    rw [List.cons_append, removeFirstByName, if_neg ha, ih rest n hn2]
    cases h : removeFirstByName rest n <;> simp [h]

/-- Claim C8: the Memory produced by the UpdateSingleMemory exchange keeps
the old memory's name and abstract and differs at most in `memory_block`;
applying it via `force_update_memory` replaces the prior record (the unique
visible/store entry carrying that name) with the new value - same name, same
abstract, new block - and leaves every other entry and the relevance map
unchanged. -/
theorem c8_update_preserves_identity
    (old : Memory) (blk : String) (spre spost vpre vpost : List Memory)
    (rel : RelevanceMap)
    (h1 : old.name ∉ memNames vpre) (h2 : old.name ∉ memNames spre)
    (h3 : old.name ∉ memNames spost) :
    (llm_update_memory old blk).name = old.name ∧
    (llm_update_memory old blk).abstract = old.abstract ∧
    (llm_update_memory old blk).memory_block = blk ∧
    force_update_memory ⟨spre ++ old :: spost, vpre ++ old :: vpost, rel⟩
        (llm_update_memory old blk)
      = .ok ⟨(spre ++ spost) ++ [llm_update_memory old blk],
             (vpre ++ vpost) ++ [llm_update_memory old blk], rel⟩ := by
  refine ⟨rfl, rfl, rfl, ?_⟩
  have hmname : (llm_update_memory old blk).name = old.name := rfl
  have hv : removeFirstByName (vpre ++ old :: vpost) (llm_update_memory old blk).name
      = some (vpre ++ vpost) := by
    rw [hmname, removeFirstByName_append_of_notmem vpre (old :: vpost) old.name h1,
      removeFirstByName, if_pos rfl]
    rfl
  have hs : removeFirstByName (spre ++ old :: spost) (llm_update_memory old blk).name
      = some (spre ++ spost) := by
    rw [hmname, removeFirstByName_append_of_notmem spre (old :: spost) old.name h2,
      removeFirstByName, if_pos rfl]
    rfl
  have hdup : (spre ++ spost).any
      (fun x => x.name == (llm_update_memory old blk).name) = false := by
    rw [hmname]
    apply any_name_eq_false
    rw [memNames_append]
    intro hc
    rcases List.mem_append.mp hc with hcc | hcc
    · exact h2 hcc
    · exact h3 hcc
  unfold force_update_memory store_update_memory
  rw [hv, hs]
  simp [hdup]

/-- Witness for C8 at concrete inputs: updating A's block to "2" beside an
untouched B. -/
theorem c8_update_preserves_identity_witness :
    (llm_update_memory ⟨"A", "a", "1"⟩ "2").name = "A" ∧
    (llm_update_memory ⟨"A", "a", "1"⟩ "2").abstract = "a" ∧
    (llm_update_memory ⟨"A", "a", "1"⟩ "2").memory_block = "2" ∧
    force_update_memory
        ⟨[] ++ ⟨"A", "a", "1"⟩ :: [⟨"B", "b", "3"⟩],
         [] ++ ⟨"A", "a", "1"⟩ :: [⟨"B", "b", "3"⟩], []⟩
        (llm_update_memory ⟨"A", "a", "1"⟩ "2")
      = .ok ⟨([] ++ [⟨"B", "b", "3"⟩]) ++ [llm_update_memory ⟨"A", "a", "1"⟩ "2"],
             ([] ++ [⟨"B", "b", "3"⟩]) ++ [llm_update_memory ⟨"A", "a", "1"⟩ "2"], []⟩ :=
  c8_update_preserves_identity ⟨"A", "a", "1"⟩ "2" [] [⟨"B", "b", "3"⟩] []
    [⟨"B", "b", "3"⟩] [] (by decide) (by decide) (by decide)

/-- `ServerMemorySession.force_remove_memory_by_name`
(`memory_server/server_memory_session.py` lines 26-27) delegates to the
repository's `remove_memory_by_name` and touches nothing else; lifted to a
state that also carries a visible list and a relevance map, the store is
updated and both other components come back untouched (the server-session
revision keeps no visible list of its own, and the snapshot-based manager
revision has no remove operation at all). -/
def session_force_remove (s : Snapshot) (n : String) : Except String Snapshot :=
  match remove_memory_by_name s.store n with
  | .error e => .error e
  | .ok st => .ok ⟨st, s.visible, s.relevance⟩

/-- Counterexample to claim C9: removing A deletes it from the backing store,
but the snapshot's visible list is untouched and still carries the name A -
the implemented operation only ever reaches the store. -/
theorem c9_counterexample_visible_untouched :
    session_force_remove ⟨[⟨"A", "a", "1"⟩], [⟨"A", "a", "1"⟩], []⟩ "A"
      = .ok ⟨[], [⟨"A", "a", "1"⟩], []⟩ ∧
    "A" ∈ memNames [⟨"A", "a", "1"⟩] :=
  ⟨rfl, by decide⟩

lemma mem_removeFirstByName :
    ∀ (l : List Memory) (n : String), n ∈ memNames l →
      ∃ pre x post, l = pre ++ x :: post ∧ x.name = n ∧ n ∉ memNames pre ∧
        removeFirstByName l n = some (pre ++ post) := by
  intro l
  induction l with
  | nil => intro n hn; exact absurd hn (by simp [memNames])
  | cons a rest ih =>
    intro n hn
    by_cases ha : a.name = n
    · exact ⟨[], a, rest, rfl, ha, by simp [memNames],
        by rw [removeFirstByName, if_pos ha]; rfl⟩
    · have hn2 : n ∈ memNames rest := by
        have hcases : n = a.name ∨ n ∈ memNames rest := by
          simpa [memNames] using hn
        rcases hcases with he | hr
        · exact absurd he.symm ha
        · exact hr
      obtain ⟨pre, x, post, hdec, hx, hnp, hrm⟩ := ih n hn2
      refine ⟨a :: pre, x, post, by rw [List.cons_append, hdec], hx, ?_, ?_⟩
      · intro hc
        have hcases : n = a.name ∨ n ∈ memNames pre := by
          simpa [memNames] using hc
        rcases hcases with he | hr
        · exact ha he.symm
        · exact hnp hr
      · rw [removeFirstByName, if_neg ha, hrm]
        rfl

/-- Claim C9 amended: the server session's `force_remove_memory_by_name`
deletes the first store entry with the given name (for every name present)
and changes nothing else - in particular the visible list and the relevance
map of the lifted state are returned untouched; when the store names are
pairwise distinct, the name is gone from the store afterwards. -/
theorem c9_amended_store_only (s : Snapshot) (n : String)
    (h : n ∈ memNames s.store) :
    ∃ pre x post,
      s.store = pre ++ x :: post ∧ x.name = n ∧ n ∉ memNames pre ∧
      session_force_remove s n = .ok ⟨pre ++ post, s.visible, s.relevance⟩ ∧
      ((memNames s.store).Nodup → n ∉ memNames (pre ++ post)) := by
  obtain ⟨pre, x, post, hdec, hx, hnp, hrm⟩ := mem_removeFirstByName s.store n h
  refine ⟨pre, x, post, hdec, hx, hnp, ?_, ?_⟩
  · unfold session_force_remove remove_memory_by_name
    rw [hrm]
  · intro hnd
    rw [hdec] at hnd
    rw [memNames_append] at hnd
    simp only [memNames, List.map_cons] at hnd
    intro hc
    rw [memNames_append] at hc
    rcases List.mem_append.mp hc with hc1 | hc1
    · exact hnp hc1
    · obtain ⟨_, hB, _⟩ := List.nodup_append.mp hnd
      have hxpost : x.name ∉ List.map Memory.name post := (List.nodup_cons.mp hB).1
      exact hxpost (hx ▸ hc1)

/-- Witness for the amended C9 at concrete inputs: removing B from a
two-element store. -/
theorem c9_amended_store_only_witness :
    ∃ pre x post,
      ([⟨"A", "a", "1"⟩, ⟨"B", "b", "2"⟩] : List Memory) = pre ++ x :: post ∧
      x.name = "B" ∧ "B" ∉ memNames pre ∧
      session_force_remove ⟨[⟨"A", "a", "1"⟩, ⟨"B", "b", "2"⟩], [], []⟩ "B"
        = .ok ⟨pre ++ post, [], []⟩ ∧
      ((memNames [⟨"A", "a", "1"⟩, ⟨"B", "b", "2"⟩]).Nodup →
        "B" ∉ memNames (pre ++ post)) :=
  c9_amended_store_only ⟨[⟨"A", "a", "1"⟩, ⟨"B", "b", "2"⟩], [], []⟩ "B" (by decide)

end MemMgr
